import Mathlib

/-!
Verification of the XOR-cipher analysis toolkit (`src/xor.rs`).

The Rust source is shallowly embedded: byte vectors (`Vec<u8>`) become
`List Nat` (all bytes produced by the code are `< 256`; `Nat.xor` agrees
with `u8` XOR there), Rust panics become `Except XorError` error results,
and fallible helpers return `Option`.  The hex/ASCII codec lives in the
repository's `string_utils` module, which is not part of the sources at
hand, so it is modelled from the specification's codec contract (section 6).
The candidate scorer works in `f32` with transcendental functions; where a
claim depends only on the selection logic, the score is abstracted as a
total linearly ordered rational value with `f32::INFINITY` as `⊤`, and the
`f32` NaN produced by the unguarded division at stripped length 0 is
modelled structurally (see `letter_frequency`).
-/

/-- Errors modelling the Rust panics of `src/xor.rs` and the codec contract:
`lengthMismatch` is the panic in `fixed_xor` (line 25), `remainderByZero` is
the arithmetic panic of `key_bytes[i % 0]` in `repeating_key_xor` (line 148),
and `malformedHex` is the codec's failure on invalid hex input. -/
inductive XorError where
  | lengthMismatch
  | remainderByZero
  | malformedHex
deriving DecidableEq

/-- Embeds `fixed_xor` (src/xor.rs lines 23-36): panic on unequal lengths
(modelled as `.error .lengthMismatch`), otherwise the positionwise XOR,
which the source builds with a `while` loop pushing `v1[index] ^ v2[index]`. -/
def fixed_xor (v1 v2 : List Nat) : Except XorError (List Nat) :=
  if v1.length ≠ v2.length then .error .lengthMismatch
  else .ok (List.zipWith (fun a b => a ^^^ b) v1 v2)

/-- Modelled from the spec: value of one hex digit (`0-9a-fA-F`,
case-insensitive), `none` on a non-hex character.  Part of the
`string_utils` codec, whose source is not under `src/`. -/
def hexDigitVal (c : Char) : Option Nat :=
  if '0' ≤ c ∧ c ≤ '9' then some (c.toNat - '0'.toNat)
  else if 'a' ≤ c ∧ c ≤ 'f' then some (c.toNat - 'a'.toNat + 10)
  else if 'A' ≤ c ∧ c ≤ 'F' then some (c.toNat - 'A'.toNat + 10)
  else none

/-- Modelled from the spec: decode hex characters two per byte; `none` when
the length is odd or a character is not a hex digit. -/
def hexPairsToBytes : List Char → Option (List Nat)
  | [] => some []
  | [_] => none
  | c1 :: c2 :: rest =>
    match hexDigitVal c1, hexDigitVal c2, hexPairsToBytes rest with
    | some hi, some lo, some v => some ((hi * 16 + lo) :: v)
    | _, _, _ => none

/-- Modelled from the spec: `hex_decode` fails with `MalformedHex` if the
length is odd or any character is not a valid hex digit (spec section 6). -/
def hex_to_byte_array (s : String) : Except XorError (List Nat) :=
  match hexPairsToBytes s.data with
  | none => .error .malformedHex
  | some v => .ok v

/-- Modelled from the spec: lowercase hex digit characters. -/
def hexDigitChar (n : Nat) : Char := "0123456789abcdef".data.getD n '0'

/-- Modelled from the spec: `hex_encode` is total, lowercase hex digits, two
characters per byte (spec section 6). -/
def byte_array_to_hex (v : List Nat) : String :=
  String.mk ((v.map (fun b => [hexDigitChar (b / 16), hexDigitChar (b % 16)])).flatten)

/-- Modelled from the spec: `try_ascii_decode` returns the decoded string if
every byte is a valid ASCII-range value, otherwise nothing (spec section 6). -/
def bytes_to_ascii_string (v : List Nat) : Option String :=
  if v.all (fun b => b < 128) then some (String.mk (v.map Char.ofNat)) else none

/-- Embeds the key loop of `xor_cypher_decrypt_char_frequency`
(src/xor.rs line 43): `for key in 0..255 as u8` iterates the half-open
range, i.e. keys `0, 1, ..., 254`. -/
def single_byte_keys : List Nat := List.range 255

/-- Embeds one key trial of the breaker (src/xor.rs lines 44-51): build a
same-length sequence filled with `key`, XOR it against the input (the
lengths always match, so `fixed_xor` cannot fail here), and attempt the
ASCII decode; `none` models the `continue`. -/
def try_key (bytes : List Nat) (key : Nat) : Option String :=
  match fixed_xor bytes (List.replicate bytes.length key) with
  | .error _ => none
  | .ok cleartext_candidate => bytes_to_ascii_string cleartext_candidate

/-- Embeds the accumulator update of the breaker loop (src/xor.rs
lines 52-56) on an already-decoded candidate: `if score < min_score` with a
strict comparison, updating both the best candidate and the minimum score.
The `f32` score value is abstracted as a rational and `f32::INFINITY` as
`⊤` of `WithTop ℚ`; the comparison is the same strict `<`. -/
def select_step (score : String → ℚ) (acc : String × WithTop ℚ) (t : String) :
    String × WithTop ℚ :=
  if (score t : WithTop ℚ) < acc.2 then (t, (score t : WithTop ℚ)) else acc

/-- Embeds one full iteration of the breaker loop (src/xor.rs lines 43-57):
a non-decodable candidate is skipped (`continue`), a decodable one goes
through the strict-minimum update. -/
def break_step (score : String → ℚ) (bytes : List Nat) (acc : String × WithTop ℚ)
    (key : Nat) : String × WithTop ℚ :=
  match try_key bytes key with
  | none => acc
  | some t => select_step score acc t

/-- Embeds `xor_cypher_decrypt_char_frequency` (src/xor.rs lines 38-60):
decode the hex input (the codec's panic on malformed hex propagates), then
fold the key loop starting from `("", INFINITY)` and return the pair
`(best_candidate, min_score)`.  The source computes the score with the
`f32`-valued `score_candidate`; since that function is floating-point and
transcendental, the breaker is embedded parametrically in a total
`ℚ`-valued scorer (the NaN score that `score_candidate` produces on
all-space candidates lies outside this abstraction; see
`letter_frequency`). -/
def xor_cypher_decrypt_char_frequency (score : String → ℚ) (s : String) :
    Except XorError (String × WithTop ℚ) :=
  match hex_to_byte_array s with
  | .error e => .error e
  | .ok bytes => .ok (single_byte_keys.foldl (break_step score bytes) ("", ⊤))

/-- The ASCII-decodable candidates the breaker's loop scores, in ascending
key order (keys that fail the ASCII decode are skipped). -/
def xor_candidates (bytes : List Nat) : List String :=
  single_byte_keys.filterMap (try_key bytes)

/-- Follows the claim's words (spec section 4.3): `r` is the candidate at
the least position achieving the minimum score — every candidate scores at
least `r.2` and every earlier candidate scores strictly more — or
`("", INFINITY)` when there is no candidate at all. -/
def IsFirstMin (score : String → ℚ) (cands : List String) (r : String × WithTop ℚ) : Prop :=
  (cands = [] ∧ r = ("", (⊤ : WithTop ℚ))) ∨
  (∃ i, ∃ h : i < cands.length,
    r = (cands.get ⟨i, h⟩, (score (cands.get ⟨i, h⟩) : WithTop ℚ)) ∧
    (∀ t ∈ cands, r.2 ≤ (score t : WithTop ℚ)) ∧
    (∀ j, ∀ hj : j < i, r.2 < (score (cands.get ⟨j, Nat.lt_trans hj h⟩) : WithTop ℚ)))

/-- Embeds line 95 of `score_candidate`: `s.replace(" ", "")`, the input
with every space character removed. -/
def stripped_string (s : String) : String :=
  String.mk (s.data.filter (fun c => c ≠ ' '))

/-- Embeds the counting loop of `score_candidate` (src/xor.rs lines
97-100): the number of occurrences of `c` among the case-folded characters
of the space-stripped text. -/
def char_count (s : String) (c : Char) : Nat :=
  (((stripped_string s).toLower).data.filter (fun d => d = c)).length

/-- Embeds the per-letter division of `score_candidate` (src/xor.rs line
104): `count / stripped_string.len()` in `f32`.  When the stripped text is
empty the count is also `0`, so the division is `0.0 / 0.0 = NaN` in IEEE
arithmetic — modelled as `none`; this NaN then propagates through the
logarithm, the absolute value and the final sum, so the whole returned
score is NaN.  When the stripped length is positive the value is the exact
rational (f32 rounding abstracted away) and every later term is finite. -/
def letter_frequency (s : String) (c : Char) : Option ℚ :=
  if (stripped_string s).length = 0 then none
  else some ((char_count s c : ℚ) / ((stripped_string s).length : ℚ))

/-- UTF-8 encoding of one character (the byte sequence Rust's
`String::into_bytes` produces for it). -/
def utf8_char_bytes (c : Char) : List Nat :=
  let n := c.toNat
  if n < 128 then [n]
  else if n < 2048 then [192 + n / 64, 128 + n % 64]
  else if n < 65536 then [224 + n / 4096, 128 + n / 64 % 64, 128 + n % 64]
  else [240 + n / 262144, 128 + n / 4096 % 64, 128 + n / 64 % 64, 128 + n % 64]

/-- Embeds Rust's `String::into_bytes` (src/xor.rs lines 143-144): the
UTF-8 bytes of the string. -/
def into_bytes (s : String) : List Nat :=
  (s.data.map utf8_char_bytes).flatten

/-- Embeds `repeating_key_xor` (src/xor.rs lines 142-151): build the cyclic
key stream `key_bytes[i % key_bytes.len()]` for every plaintext index and
hex-encode the fixed XOR of plaintext and key stream.  When the key is
empty and the plaintext is not, the first loop iteration computes `i % 0`,
which panics in Rust — modelled as `.error .remainderByZero`; with an empty
plaintext the loop body never runs, so no panic occurs. -/
def repeating_key_xor (s key : String) : Except XorError String :=
  let bytes := into_bytes s
  let key_bytes := into_bytes key
  if bytes.length ≠ 0 ∧ key_bytes.length = 0 then .error .remainderByZero
  else
    let cypher := (List.range bytes.length).map
      (fun i => key_bytes.getD (i % key_bytes.length) 0)
    match fixed_xor bytes cypher with
    | .error e => .error e
    | .ok v => .ok (byte_array_to_hex v)

/-- Embeds one iteration of `detect_single_char_xor` (src/xor.rs lines
130-137): run the breaker on the current ciphertext (its panic on malformed
hex propagates) and keep the result if its score is strictly below the
minimum seen so far.  The accumulator is `(min_score, best_cleartext,
best_index)`. -/
def detect_step (score : String → ℚ) (acc : WithTop ℚ × String × Nat)
    (p : Nat × String) : Except XorError (WithTop ℚ × String × Nat) :=
  match xor_cypher_decrypt_char_frequency score p.2 with
  | .error e => .error e
  | .ok r => if r.2 < acc.1 then .ok (r.2, r.1, p.1) else .ok acc

/-- Embeds `detect_single_char_xor` (src/xor.rs lines 125-140): fold the
enumerated ciphertext collection through `detect_step` starting from
`(INFINITY, "", 0)` and return `(best_index, best_cleartext)`. -/
def detect_single_char_xor (score : String → ℚ) (v : List String) :
    Except XorError (Nat × String) :=
  match v.enum.foldlM (detect_step score) ((⊤ : WithTop ℚ), "", 0) with
  | .error e => .error e
  | .ok acc => .ok (acc.2.2, acc.2.1)

/-- A concrete total scorer used to instantiate witness theorems. -/
def demo_score (t : String) : ℚ := (t.length : ℚ)

/-- XOR-ing positionwise with the same equal-length list twice restores the
original list. -/
theorem zipWith_xor_cancel (A B : List Nat) (h : A.length = B.length) :
    List.zipWith (fun a b => a ^^^ b) (List.zipWith (fun a b => a ^^^ b) A B) B = A := by
  induction A generalizing B with
  | nil =>
    cases B with
    | nil => rfl
    | cons b B => simp at h
  | cons a A ih =>
    cases B with
    | nil => simp at h
    | cons b B =>
      simp only [List.length_cons, Nat.add_right_cancel_iff] at h
      simp only [List.zipWith_cons_cons, Nat.xor_cancel_right, List.cons.injEq]
      exact ⟨trivial, ih B h⟩

set_option maxRecDepth 10000 in
/-- Claim C1: the claim fails on the code.  The breaker's key loop is
`for key in 0..255 as u8` (src/xor.rs line 43), a half-open range: only the
255 keys 0-254 are ever tried and key 255 is never among them, while the
claim (and spec section 4.3) says all 256 keys 0-255 inclusive are tried. -/
theorem single_byte_keys_omit_255 :
    single_byte_keys.length = 255 ∧ (255 : Nat) ∉ single_byte_keys := by decide

/-- Claim C2: the claim fails on the code.  `repeating_key_xor` has no
empty-key guard (src/xor.rs lines 142-151): with a non-empty plaintext and
an empty key the first loop iteration evaluates `key_bytes[i % 0]`, a
remainder-by-zero panic rather than an explicit `InvalidKey` error, and
with an empty plaintext the loop never runs and the empty hex string is
returned with no error at all. -/
theorem repeating_key_xor_empty_key_behavior :
    repeating_key_xor "a" "" = .error .remainderByZero ∧
    repeating_key_xor "" "" = .ok "" := ⟨rfl, rfl⟩

/-- Claim C3: the claim fails on the code.  `score_candidate` does not
guard the per-letter division (src/xor.rs line 104): on the empty string,
or on any all-space string, the stripped text has length 0 and every
per-letter frequency is the IEEE division `0.0 / 0.0 = NaN` (modelled as
`none`), which propagates to a NaN final score instead of the well-defined
guarded score the claim describes. -/
theorem letter_frequency_unguarded_at_empty :
    (∀ c : Char, letter_frequency "" c = none) ∧
    (∀ c : Char, letter_frequency "   " c = none) :=
  ⟨fun _ => rfl, fun _ => rfl⟩

/-- Claim C5: fixed XOR is self-inverse — for equal-length byte sequences
`A` and `B`, XOR-ing `A` with `B` succeeds and XOR-ing the result with `B`
again gives back `A`. -/
theorem fixed_xor_self_inverse (A B : List Nat) (h : A.length = B.length) :
    ∃ C, fixed_xor A B = .ok C ∧ fixed_xor C B = .ok A := by
  refine ⟨List.zipWith (fun a b => a ^^^ b) A B, ?_, ?_⟩
  · simp [fixed_xor, h]
  · have hlen : (List.zipWith (fun a b => a ^^^ b) A B).length = B.length := by
      simp [List.length_zipWith, h]
    simp [fixed_xor, hlen, zipWith_xor_cancel A B h]

/-- Witness for C5 at the concrete pair `[1, 200]`, `[3, 77]`. -/
theorem fixed_xor_self_inverse_witness :
    ([1, 200] : List Nat).length = [3, 77].length ∧
    ∃ C, fixed_xor [1, 200] [3, 77] = .ok C ∧ fixed_xor C [3, 77] = .ok [1, 200] :=
  ⟨rfl, fixed_xor_self_inverse [1, 200] [3, 77] rfl⟩

/-- Claim C9: `fixed_xor` on sequences of unequal length fails with the
length-mismatch error (the source's panic at src/xor.rs line 25, which
unwinds to the caller) and produces no partial result. -/
theorem fixed_xor_length_mismatch (A B : List Nat) (h : A.length ≠ B.length) :
    fixed_xor A B = .error .lengthMismatch := by
  simp [fixed_xor, h]

/-- Witness for C9 at the concrete pair `[0]`, `[]`. -/
theorem fixed_xor_length_mismatch_witness :
    ([0] : List Nat).length ≠ ([] : List Nat).length ∧
    fixed_xor [0] [] = .error .lengthMismatch :=
  ⟨by decide, fixed_xor_length_mismatch [0] [] (by decide)⟩

set_option maxRecDepth 100000 in
/-- Claim C4: for every plaintext and every non-empty key,
`repeating_key_xor` returns the hex encoding of the byte sequence whose
byte `i` is plaintext byte `i` XOR key byte `i mod key.length`; and on the
spec's known vector — the "Burning ..." plaintext with key "ICE" — it
returns exactly the spec's hex string. -/
theorem repeating_key_xor_correct :
    (∀ s key : String, into_bytes key ≠ [] →
      ∃ out : List Nat, repeating_key_xor s key = .ok (byte_array_to_hex out) ∧
        out.length = (into_bytes s).length ∧
        ∀ i, ∀ h : i < out.length,
          out.get ⟨i, h⟩ =
            (into_bytes s).getD i 0 ^^^
              (into_bytes key).getD (i % (into_bytes key).length) 0) ∧
    repeating_key_xor
        "Burning \x27em, if you ain\x27t quick and nimble\nI go crazy when I hear a cymbal"
        "ICE" =
      .ok "0b3637272a2b2e63622c2e69692a23693a2a3c6324202d623d63343c2a26226324272765272a282b2f20430a652e2c652a3124333a653e2b2027630c692b20283165286326302e27282f" := by
  constructor
  · intro s key hk
    have hkl : (into_bytes key).length ≠ 0 := by
      simpa [List.length_eq_zero] using hk
    have hclen : ((List.range (into_bytes s).length).map
        (fun i => (into_bytes key).getD (i % (into_bytes key).length) 0)).length =
        (into_bytes s).length := by simp
    refine ⟨List.zipWith (fun a b => a ^^^ b) (into_bytes s)
      ((List.range (into_bytes s).length).map
        (fun i => (into_bytes key).getD (i % (into_bytes key).length) 0)), ?_, ?_, ?_⟩
    · simp only [repeating_key_xor]
      rw [if_neg (by simp [hkl])]
      rw [show fixed_xor (into_bytes s)
          ((List.range (into_bytes s).length).map
            (fun i => (into_bytes key).getD (i % (into_bytes key).length) 0)) =
          .ok (List.zipWith (fun a b => a ^^^ b) (into_bytes s)
            ((List.range (into_bytes s).length).map
              (fun i => (into_bytes key).getD (i % (into_bytes key).length) 0)))
        from by simp [fixed_xor, hclen]]
    · simp [List.length_zipWith, hclen]
    · intro i h
      have hib : i < (into_bytes s).length := by
        simpa [List.length_zipWith, hclen] using h
      have him : i < ((List.range (into_bytes s).length).map
          (fun j => (into_bytes key).getD (j % (into_bytes key).length) 0)).length := by
        simpa using hib
      rw [List.get_eq_getElem, List.getElem_zipWith, List.getElem_map, List.getElem_range,
        List.getD_eq_getElem (into_bytes s) 0 hib]
  · rfl

/-- Witness for C4's general part at the concrete plaintext "AB" and key
"ICE". -/
theorem repeating_key_xor_correct_witness :
    into_bytes "ICE" ≠ [] ∧
    ∃ out : List Nat, repeating_key_xor "AB" "ICE" = .ok (byte_array_to_hex out) ∧
      out.length = (into_bytes "AB").length ∧
      ∀ i, ∀ h : i < out.length,
        out.get ⟨i, h⟩ =
          (into_bytes "AB").getD i 0 ^^^
            (into_bytes "ICE").getD (i % (into_bytes "ICE").length) 0 :=
  ⟨by decide, repeating_key_xor_correct.1 "AB" "ICE" (by decide)⟩

/-- Claim C8: the multi-ciphertext detector applied to the empty collection
returns index 0 and the empty string — the accumulator `(INFINITY, "", 0)`
is never overwritten. -/
theorem detect_single_char_xor_empty (score : String → ℚ) :
    detect_single_char_xor score [] = .ok (0, "") := rfl

/-- Claim C10: `repeating_key_xor` with an empty plaintext returns the
empty hex string without any error for every key, the empty key included —
the cyclic key-indexing loop runs zero times, so the `i % 0` panic can only
occur for a non-empty plaintext. -/
theorem repeating_key_xor_empty_plaintext (key : String) :
    repeating_key_xor "" key = .ok "" := rfl

/-- The breaker's key loop (skipping non-decodable keys inline) computes
the same fold as the strict-minimum selection over the list of decodable
candidates. -/
theorem foldl_break_eq_filterMap (score : String → ℚ) (bytes : List Nat)
    (l : List Nat) (acc : String × WithTop ℚ) :
    l.foldl (break_step score bytes) acc =
      (l.filterMap (try_key bytes)).foldl (select_step score) acc := by
  induction l generalizing acc with
  | nil => rfl
  | cons k l ih =>
    cases h : try_key bytes k with
    | none =>
      simp only [List.foldl_cons, List.filterMap_cons, h, break_step]
      exact ih _
    | some t =>
      simp only [List.foldl_cons, List.filterMap_cons, h, break_step]
      exact ih _

/-- Characterization of the strict-`<` selection fold: starting from any
accumulator, either no element beats the accumulator (and every element
scores at least the accumulator's score), or the result is the element at
the least position achieving the minimum score, which beats the
accumulator, is a lower bound of all scores, and is strictly below every
earlier element's score. -/
theorem select_foldl_spec (score : String → ℚ) (l : List String)
    (acc : String × WithTop ℚ) :
    (l.foldl (select_step score) acc = acc ∧
      ∀ t ∈ l, acc.2 ≤ (score t : WithTop ℚ)) ∨
    (∃ i, ∃ h : i < l.length,
      l.foldl (select_step score) acc =
        (l.get ⟨i, h⟩, (score (l.get ⟨i, h⟩) : WithTop ℚ)) ∧
      (score (l.get ⟨i, h⟩) : WithTop ℚ) < acc.2 ∧
      (∀ t ∈ l, (score (l.get ⟨i, h⟩) : WithTop ℚ) ≤ (score t : WithTop ℚ)) ∧
      (∀ j, ∀ hj : j < i,
        (score (l.get ⟨i, h⟩) : WithTop ℚ) <
          (score (l.get ⟨j, Nat.lt_trans hj h⟩) : WithTop ℚ))) := by
  induction l generalizing acc with
  | nil => exact Or.inl ⟨rfl, by simp⟩
  | cons t l ih =>
    by_cases hlt : (score t : WithTop ℚ) < acc.2
    · have hstep : select_step score acc t = (t, (score t : WithTop ℚ)) := by
        simp [select_step, hlt]
      rcases ih (t, (score t : WithTop ℚ)) with ⟨heq, hall⟩ | ⟨i, hi, heq, hlt2, hmin, hfirst⟩
      · refine Or.inr ⟨0, Nat.succ_pos _, ?_, hlt, ?_, ?_⟩
        · rw [List.foldl_cons, hstep, heq]; rfl
        · intro u hu
          rcases List.mem_cons.mp hu with rfl | hu
          · exact le_refl _
          · exact hall u hu
        · intro j hj
          exact absurd hj (Nat.not_lt_zero j)
      · refine Or.inr ⟨i + 1, Nat.succ_lt_succ hi, ?_, lt_trans hlt2 hlt, ?_, ?_⟩
        · rw [List.foldl_cons, hstep, heq]; rfl
        · intro u hu
          rcases List.mem_cons.mp hu with rfl | hu
          · exact le_of_lt hlt2
          · exact hmin u hu
        · intro j hj
          cases j with
          | zero => exact hlt2
          | succ j => exact hfirst j (Nat.lt_of_succ_lt_succ hj)
    · have hle : acc.2 ≤ (score t : WithTop ℚ) := not_lt.mp hlt
      have hstep : select_step score acc t = acc := by
        simp [select_step, hlt]
      rcases ih acc with ⟨heq, hall⟩ | ⟨i, hi, heq, hlt2, hmin, hfirst⟩
      · refine Or.inl ⟨?_, ?_⟩
        · rw [List.foldl_cons, hstep, heq]
        · intro u hu
          rcases List.mem_cons.mp hu with rfl | hu
          · exact hle
          · exact hall u hu
      · refine Or.inr ⟨i + 1, Nat.succ_lt_succ hi, ?_, hlt2, ?_, ?_⟩
        · rw [List.foldl_cons, hstep, heq]; rfl
        · intro u hu
          rcases List.mem_cons.mp hu with rfl | hu
          · exact le_of_lt (lt_of_lt_of_le hlt2 hle)
          · exact hmin u hu
        · intro j hj
          cases j with
          | zero => exact lt_of_lt_of_le hlt2 hle
          | succ j => exact hfirst j (Nat.lt_of_succ_lt_succ hj)

/-- Claim C6: the breaker scans keys in ascending order updating with a
strict `<` comparison, so on any decodable hex input it returns the
candidate produced by the smallest key achieving the minimum score among
the ASCII-decodable candidates — ties go to the first key, never a later
equal-scoring one — together with that minimum score. -/
theorem xor_breaker_first_min (score : String → ℚ) (s : String) (bytes : List Nat)
    (h : hex_to_byte_array s = .ok bytes) :
    ∃ r, xor_cypher_decrypt_char_frequency score s = .ok r ∧
      IsFirstMin score (xor_candidates bytes) r := by
  refine ⟨single_byte_keys.foldl (break_step score bytes) ("", ⊤), ?_, ?_⟩
  · simp [xor_cypher_decrypt_char_frequency, h]
  · simp only [IsFirstMin, xor_candidates]
    rw [foldl_break_eq_filterMap]
    rcases select_foldl_spec score (single_byte_keys.filterMap (try_key bytes)) ("", ⊤) with
      ⟨heq, hall⟩ | ⟨i, hi, heq, hlt, hmin, hfirst⟩
    · left
      refine ⟨?_, heq⟩
      rcases hempty : single_byte_keys.filterMap (try_key bytes) with _ | ⟨t, l⟩
      · rfl
      · exfalso
        have hmem : t ∈ single_byte_keys.filterMap (try_key bytes) := by
          rw [hempty]; exact List.mem_cons_self _ _
        exact absurd (hall t hmem) (by simp)
    · rw [heq]
      right
      exact ⟨i, hi, rfl, hmin, hfirst⟩

/-- Witness for C6 at the concrete input "00" with the concrete scorer
`demo_score`. -/
theorem xor_breaker_first_min_witness :
    hex_to_byte_array "00" = .ok [0] ∧
    ∃ r, xor_cypher_decrypt_char_frequency demo_score "00" = .ok r ∧
      IsFirstMin demo_score (xor_candidates [0]) r :=
  ⟨rfl, xor_breaker_first_min demo_score "00" [0] rfl⟩

/-- Claim C7: on any input whose bytes admit no ASCII-decodable candidate
for any single-byte key, the breaker returns the pair of the empty string
and positive infinity as a defined result, not an error. -/
theorem xor_breaker_no_candidate (score : String → ℚ) (s : String) (bytes : List Nat)
    (h : hex_to_byte_array s = .ok bytes)
    (hnone : ∀ k, k < 256 → try_key bytes k = none) :
    xor_cypher_decrypt_char_frequency score s = .ok ("", (⊤ : WithTop ℚ)) := by
  have hcands : single_byte_keys.filterMap (try_key bytes) = [] := by
    rw [List.filterMap_eq_nil_iff]
    intro k hk
    exact hnone k (Nat.lt_trans (List.mem_range.mp hk) (by norm_num))
  simp only [xor_cypher_decrypt_char_frequency, h]
  rw [foldl_break_eq_filterMap, hcands]
  rfl

set_option maxRecDepth 100000 in
/-- Witness for C7 at the concrete input "00ff" (bytes `[0x00, 0xff]`: for
every key one of the two XOR outputs has its top bit set, so no key is
ASCII-decodable). -/
theorem xor_breaker_no_candidate_witness :
    (∀ k, k < 256 → try_key [0, 255] k = none) ∧
    xor_cypher_decrypt_char_frequency demo_score "00ff" = .ok ("", (⊤ : WithTop ℚ)) :=
  ⟨by decide, xor_breaker_no_candidate demo_score "00ff" [0, 255] rfl (by decide)⟩
